import Mathlib

/-!
Verification of the NEO database component (src/database.py) of the
markclare1992/cd0010 repository.

The entity classes (models.py) are not part of the provided sources, so the
two entity structures below are modelled from the specification of the data
model.  Everything else is a direct shallow embedding of src/database.py.

Object identity and mutation are modelled with indices: the NEO collection
and the approach collection are Lean lists, an object is identified by its
index, the mutable `neo` attribute of an approach is an `Option Nat`
(index into the NEO list), and the mutable `approaches` attribute of an NEO
is a `List Nat` (indices into the approach list, in append order).
-/

set_option autoImplicit false

namespace NeoDb

/-- Modelled from the spec: a calendar date-time value (models.py is not under
src/).  `date` is the calendar-date part, as returned by Python
`datetime.date()`; `timeOfDay` is the remaining time-of-day information. -/
structure Datetime where
  date : Int
  timeOfDay : Nat
  deriving DecidableEq, Repr

/-- Modelled from the spec: a near-Earth object (models.py is not under src/).
`designation` is the unique primary key; `name` is optional, with absence
(`none`) distinct from the empty string; `diameter` is numeric and possibly
unknown (`none` models the NaN sentinel); `hazardous` is a boolean flag.
The mutable `approaches` back-reference collection is kept outside this
structure (see `InitResult.na`). -/
structure NearEarthObject where
  designation : String
  name : Option String
  diameter : Option Rat
  hazardous : Bool
  deriving DecidableEq, Repr

/-- Modelled from the spec: a close approach (models.py is not under src/).
`designation` is the transient link key, `time` the date-time of the
approach, `distance` and `velocity` its measurements.  The mutable `neo`
reference is kept outside this structure (as an `Option Nat` paired with
it). -/
structure CloseApproach where
  designation : String
  time : Datetime
  distance : Rat
  velocity : Rat
  deriving DecidableEq, Repr

/-- Python `str.lower()`: character-wise lowercasing of a string. -/
def strLower (s : String) : String :=
  ⟨s.data.map Char.toLower⟩

/-- Index of the first element of a list satisfying a predicate; models a
Python `next((x for x in l if p x), None)` search, with the returned object
identified by its index. -/
def findFirstIdx {α : Type} (p : α → Bool) : List α → Option Nat
  | [] => none
  | x :: xs => if p x then some 0 else (findFirstIdx p xs).map (· + 1)

/-- Embeds `NEODatabase.get_neo_by_designation` (database.py lines 66-83):
`next((x for x in self._neos if x.designation.lower() == designation.lower()),
None)`, with the returned NEO identified by its index in `neos`. -/
def get_neo_by_designation_idx (neos : List NearEarthObject) (designation : String) : Option Nat :=
  findFirstIdx (fun x => strLower x.designation == strLower designation) neos

/-- Embeds `NEODatabase.get_neo_by_name` (database.py lines 85-109).  The
`name` argument is `none` for Python `None`.  Source:
`if name is None or name == "": return None` followed by
`next((x for x in self._neos if x.name is not None and x.name.lower() ==
name.lower()), None)`, with the returned NEO identified by its index. -/
def get_neo_by_name_idx (neos : List NearEarthObject) (name : Option String) : Option Nat :=
  match name with
  | none => none
  | some s =>
    if s = "" then none
    else
      findFirstIdx
        (fun x =>
          match x.name with
          | none => false
          | some nm => strLower nm == strLower s)
        neos

/-- The construction-time failure of `NEODatabase.__init__` (database.py
line 52): the source raises `ValueError("No NEO found for this approach.")`;
the spec names this condition `LinkageError`. -/
inductive LinkageError where
  | valueError (msg : String)
  deriving DecidableEq, Repr

/-- `appendAt na i j` models `neo.approaches.append(approach)`: the NEO at
index `i` gets the approach index `j` appended to its `approaches` list. -/
def appendAt (na : List (List Nat)) (i : Nat) (j : Nat) : List (List Nat) :=
  na.set i ((na.getD i []) ++ [j])

/-- `bucketAdd di d j` models
`self._date_to_approaches[approach.time.date()].append(approach)` on a
`defaultdict(list)`: append `j` to the bucket of key `d`, creating the
bucket at the end (dict insertion order) when the key is new. -/
def bucketAdd (di : List (Int × List Nat)) (d : Int) (j : Nat) : List (Int × List Nat) :=
  match di with
  | [] => [(d, [j])]
  | (k, v) :: rest => if k = d then (k, v ++ [j]) :: rest else (k, v) :: bucketAdd rest d j

/-- The state produced by running the body of `NEODatabase.__init__`
(database.py lines 49-55) over the approach collection:
`aps` pairs each input approach with the final value of its `.neo`
attribute, `na` is the final `.approaches` list of each input NEO,
`di` is `self._date_to_approaches`, and `raised` records whether the
`ValueError` propagated out of the constructor. -/
structure InitResult where
  aps : List (CloseApproach × Option Nat)
  na : List (List Nat)
  di : List (Int × List Nat)
  raised : Bool
  deriving DecidableEq, Repr

/-- The loop `for approach in self._approaches:` of `NEODatabase.__init__`
(database.py lines 49-55).  For each approach (at index `j`):
`approach.neo = self.get_neo_by_designation(approach.designation)`; if that
is `None` a `ValueError` is raised (the approaches already processed keep
their links, the rest stay unlinked); otherwise the approach is appended to
`approach.neo.approaches` and to the date bucket, and the loop continues. -/
def initLoop (neos : List NearEarthObject) :
    List CloseApproach → Nat → List (List Nat) → List (Int × List Nat) → InitResult
  | [], _, na, di => ⟨[], na, di, false⟩
  | a :: rest, j, na, di =>
    match get_neo_by_designation_idx neos a.designation with
    | none => ⟨(a, none) :: rest.map (fun x => (x, none)), na, di, true⟩
    | some i =>
      let r := initLoop neos rest (j + 1) (appendAt na i j) (bucketAdd di a.time.date j)
      ⟨(a, some i) :: r.aps, r.na, r.di, r.raised⟩

/-- Running `NEODatabase.__init__` on unlinked input: every NEO starts with
an empty `approaches` list, every approach with `neo = None`, and
`self._date_to_approaches` starts as an empty `defaultdict(list)`. -/
def initRun (neos : List NearEarthObject) (approaches : List CloseApproach) : InitResult :=
  initLoop neos approaches 0 (List.replicate neos.length []) []

/-- The attributes of a constructed `NEODatabase` object.  `_neos` and
`_approaches` are the input collections; `approachNeo` and `neoApproaches`
are the link attributes written into the input objects by the constructor.
The three `..._sorted` attributes are `Option`s because `__init__` never
sets them: they exist only after an explicit call of the (never-invoked)
method `__post__init__` (database.py lines 57-64). -/
structure NEODatabase where
  _neos : List NearEarthObject
  _approaches : List CloseApproach
  approachNeo : List (Option Nat)
  neoApproaches : List (List Nat)
  _date_to_approaches : List (Int × List Nat)
  approaches_distance_sorted : Option (List CloseApproach)
  approaches_velocity_sorted : Option (List CloseApproach)
  neos_diameter_sorted : Option (List NearEarthObject)
  deriving DecidableEq, Repr

/-- `NEODatabase(neos, approaches)` (database.py lines 27-55): runs the
linking loop; if the `ValueError` was raised no database object is returned
(`Except.error`), otherwise the constructed object is returned.  The three
sorted attributes are absent (`none`): nothing calls `__post__init__`. -/
def NEODatabase.construct (neos : List NearEarthObject) (approaches : List CloseApproach) :
    Except LinkageError NEODatabase :=
  let r := initRun neos approaches
  if r.raised then Except.error (LinkageError.valueError "No NEO found for this approach.")
  else Except.ok ⟨neos, approaches, r.aps.map Prod.snd, r.na, r.di, none, none, none⟩

/-- Method `get_neo_by_designation` on a constructed database: the returned
NEO object itself (database.py lines 66-83). -/
def NEODatabase.get_neo_by_designation (db : NEODatabase) (designation : String) :
    Option NearEarthObject :=
  (get_neo_by_designation_idx db._neos designation).bind fun i => db._neos.get? i

/-- Method `get_neo_by_name` on a constructed database: the returned NEO
object itself (database.py lines 85-109). -/
def NEODatabase.get_neo_by_name (db : NEODatabase) (name : Option String) :
    Option NearEarthObject :=
  (get_neo_by_name_idx db._neos name).bind fun i => db._neos.get? i

/-- The predicate evaluated for each approach inside `query` (database.py
line 135): `all(f(approach) for f in filters)`. -/
def passesAll (filters : List (CloseApproach → Bool)) (a : CloseApproach) : Bool :=
  filters.all fun f => f a

/-- The state of one generator object produced by a call of
`NEODatabase.query` (database.py lines 111-136): the suffix of
`self._approaches` the loop has not yet visited, together with the
captured `filters` argument.  The generator never mutates the database, so
this pair is its entire state. -/
structure QueryGen where
  remaining : List CloseApproach
  filters : List (CloseApproach → Bool)

/-- One `next(...)` step on a query generator over an explicit remaining
list: advance the `for approach in self._approaches` loop until an approach
passes all filters, yield it, and suspend with the rest of the list. -/
def genNext (filters : List (CloseApproach → Bool)) :
    List CloseApproach → Option (CloseApproach × List CloseApproach)
  | [] => none
  | a :: rest => if passesAll filters a then some (a, rest) else genNext filters rest

/-- One `next(...)` step on a query generator. -/
def QueryGen.next (g : QueryGen) : Option (CloseApproach × QueryGen) :=
  (genNext g.filters g.remaining).map fun p => (p.1, ⟨p.2, g.filters⟩)

/-- Exhausting a query generator over an explicit remaining list: the full
sequence of approaches it yields. -/
def genToList (filters : List (CloseApproach → Bool)) :
    List CloseApproach → List CloseApproach
  | [] => []
  | a :: rest =>
    if passesAll filters a then a :: genToList filters rest else genToList filters rest

/-- The full sequence of approaches a query generator yields. -/
def QueryGen.toList (g : QueryGen) : List CloseApproach :=
  genToList g.filters g.remaining

/-- Method `query` (database.py lines 111-136): calling it creates a fresh
generator over `self._approaches` with the supplied filters; no element is
produced until the generator is consumed. -/
def NEODatabase.query (db : NEODatabase) (filters : List (CloseApproach → Bool)) : QueryGen :=
  ⟨db._approaches, filters⟩

/-- Consuming up to `n` elements from a single query generator, alone. -/
def consume : Nat → QueryGen → List CloseApproach
  | 0, _ => []
  | n + 1, g =>
    match g.next with
    | none => []
    | some (a, g2) => a :: consume n g2

/-- Interleaved consumption of two query generators following a schedule:
`true` steps `next` on the first generator, `false` on the second; each
side collects the elements it received. -/
def interleave : List Bool → QueryGen → QueryGen → List CloseApproach × List CloseApproach
  | [], _, _ => ([], [])
  | true :: sched, g1, g2 =>
    match g1.next with
    | none => interleave sched g1 g2
    | some (a, g1x) =>
      let p := interleave sched g1x g2
      (a :: p.1, p.2)
  | false :: sched, g1, g2 =>
    match g2.next with
    | none => interleave sched g1 g2
    | some (a, g2x) =>
      let p := interleave sched g1 g2x
      (p.1, a :: p.2)

/-- The method `__post__init__` (database.py lines 57-64), which no code in
the repository ever invokes (the class is not a dataclass, and even a
dataclass hook would be spelled with a single underscore).  It would set
the three sorted attributes; Python `sorted` is stable, modelled with a
stable insertion sort on a strict key comparison.  For the diameter key the
unknown sentinel is a float NaN, every `<` comparison on which is false;
with such keys Python `sorted` produces an algorithm-dependent order, and
this model reproduces only the all-comparisons-false behaviour, not the
exact timsort order. -/
def insertBy {α : Type} (lt : α → α → Bool) (x : α) : List α → List α
  | [] => [x]
  | y :: ys => if lt x y then x :: y :: ys else y :: insertBy lt x ys

/-- Stable insertion sort by a strict comparison (see `insertBy`). -/
def sortBy {α : Type} (lt : α → α → Bool) : List α → List α
  | [] => []
  | x :: xs => insertBy lt x (sortBy lt xs)

/-- Strict comparison of possibly-unknown diameters: an unknown diameter
(NaN) compares false against everything, as in Python float `<`. -/
def diamLt (a b : Option Rat) : Bool :=
  match a, b with
  | some x, some y => x < y
  | _, _ => false

/-- `NEODatabase.__post__init__` (database.py lines 57-64) as the explicit
method it is: returns the object with the three sorted attributes set.
Nothing in the repository calls it. -/
def NEODatabase.postInit (db : NEODatabase) : NEODatabase :=
  { db with
    approaches_distance_sorted :=
      some (sortBy (fun a b => a.distance < b.distance) db._approaches)
    approaches_velocity_sorted :=
      some (sortBy (fun a b => a.velocity < b.velocity) db._approaches)
    neos_diameter_sorted :=
      some (sortBy (fun a b => diamLt a.diameter b.diameter) db._neos) }

/-- The position of the first approach whose designation matches no NEO:
the place where `NEODatabase.__init__` raises. -/
def firstUnmatched (neos : List NearEarthObject) (aps : List CloseApproach) : Option Nat :=
  findFirstIdx (fun a => (get_neo_by_designation_idx neos a.designation).isNone) aps

/-! ### Concrete test fixtures (the concrete scenario of the spec) -/

/-- The NEO with designation "433" and name "Eros" from the concrete
scenario of the spec. -/
def erosNeo : NearEarthObject := ⟨"433", some "Eros", some (1684 / 100 : Rat), false⟩

/-- The NEO with designation "2000 XY", no name and unknown diameter from
the concrete scenario of the spec. -/
def xyNeo : NearEarthObject := ⟨"2000 XY", none, none, false⟩

/-- The approach of "433" from the concrete scenario of the spec. -/
def approach433 : CloseApproach := ⟨"433", ⟨20200101, 0⟩, 3 / 10, 5⟩

/-- The approach of "2000 XY" from the concrete scenario of the spec. -/
def approachXY : CloseApproach := ⟨"2000 XY", ⟨20200601, 0⟩, 1 / 10, 20⟩

/-- An approach whose designation matches no NEO of the scenario. -/
def approachNope : CloseApproach := ⟨"does-not-exist", ⟨20200701, 0⟩, 1, 1⟩

/-- An NEO whose designation case-folds equally to that of `abcNeo2`. -/
def abcNeo : NearEarthObject := ⟨"ABC", some "First", some 1, false⟩

/-- An NEO whose designation case-folds equally to that of `abcNeo`. -/
def abcNeo2 : NearEarthObject := ⟨"abc", some "Second", some 2, true⟩

/-- An approach whose designation case-folds to the shared designation of
`abcNeo` and `abcNeo2`. -/
def approachAbc : CloseApproach := ⟨"AbC", ⟨20200801, 0⟩, 1, 1⟩

/-- The database object the constructor builds from the concrete scenario
of the spec (checked against `NEODatabase.construct` in `sampleDb_eq`). -/
def sampleDb : NEODatabase :=
  ⟨[erosNeo, xyNeo], [approach433, approachXY], [some 0, some 1], [[0], [1]],
    [(20200101, [0]), (20200601, [1])], none, none, none⟩

/-! ### Helper lemmas -/

theorem strLower_data (s : String) : (strLower s).data = s.data.map Char.toLower := rfl

theorem strLower_eq_empty_iff (s : String) : strLower s = "" ↔ s = "" := by
  constructor
  · intro h
    have hd : (strLower s).data = [] := by rw [h]
    rw [strLower_data, List.map_eq_nil_iff] at hd
    cases s
    simp_all
  · intro h
    subst h
    rfl

theorem findFirstIdx_eq_none_iff {α : Type} (p : α → Bool) (l : List α) :
    findFirstIdx p l = none ↔ ∀ x ∈ l, p x = false := by
  induction l with
  | nil => simp [findFirstIdx]
  | cons a xs ih =>
    by_cases h : p a
    · simp [findFirstIdx, h]
    · simp only [findFirstIdx, if_neg h, Option.map_eq_none', ih, List.mem_cons]
      constructor
      · intro hall x hx
        rcases hx with rfl | hx
        · exact Bool.eq_false_iff.mpr h
        · exact hall x hx
      · intro hall x hx
        exact hall x (Or.inr hx)

theorem findFirstIdx_eq_some {α : Type} (p : α → Bool) (l : List α) (i : Nat)
    (h : findFirstIdx p l = some i) :
    ∃ x, l.get? i = some x ∧ p x = true ∧
      ∀ k y, k < i → l.get? k = some y → p y = false := by
  induction l generalizing i with
  | nil => simp [findFirstIdx] at h
  | cons a xs ih =>
    by_cases hp : p a
    · simp only [findFirstIdx, if_pos hp, Option.some.injEq] at h
      subst h
      exact ⟨a, rfl, hp, fun k y hk _ => absurd hk (Nat.not_lt_zero k)⟩
    · simp only [findFirstIdx, if_neg hp, Option.map_eq_some'] at h
      obtain ⟨j, hj, rfl⟩ := h
      obtain ⟨x, hx, hpx, hmin⟩ := ih j hj
      refine ⟨x, by simpa using hx, hpx, ?_⟩
      intro k y hk hky
      cases k with
      | zero =>
        simp only [List.get?_cons_zero, Option.some.injEq] at hky
        subst hky
        exact Bool.eq_false_iff.mpr hp
      | succ k2 =>
        exact hmin k2 y (Nat.lt_of_succ_lt_succ hk) (by simpa using hky)

theorem findFirstIdx_isSome_of_mem {α : Type} (p : α → Bool) (l : List α) (x : α)
    (hx : x ∈ l) (hp : p x = true) : ∃ i, findFirstIdx p l = some i := by
  match h : findFirstIdx p l with
  | some i => exact ⟨i, rfl⟩
  | none =>
    have := (findFirstIdx_eq_none_iff p l).mp h x hx
    rw [hp] at this
    exact absurd this (by simp)

theorem findFirstIdx_lt_length {α : Type} (p : α → Bool) (l : List α) (i : Nat)
    (h : findFirstIdx p l = some i) : i < l.length := by
  obtain ⟨x, hx, -, -⟩ := findFirstIdx_eq_some p l i h
  exact (List.get?_eq_some.mp hx).1

theorem genToList_eq_filter (fs : List (CloseApproach → Bool)) (l : List CloseApproach) :
    genToList fs l = l.filter (passesAll fs) := by
  induction l with
  | nil => rfl
  | cons a rest ih =>
    by_cases h : passesAll fs a
    · simp [genToList, h, List.filter_cons, ih]
    · simp [genToList, h, List.filter_cons, ih]

theorem genNext_none_toList (fs : List (CloseApproach → Bool)) (l : List CloseApproach)
    (h : genNext fs l = none) : genToList fs l = [] := by
  induction l with
  | nil => rfl
  | cons a rest ih =>
    by_cases hp : passesAll fs a
    · simp [genNext, hp] at h
    · simp only [genNext, if_neg hp] at h
      simp [genToList, hp, ih h]

theorem genNext_some_toList (fs : List (CloseApproach → Bool)) (l : List CloseApproach)
    (a : CloseApproach) (rest : List CloseApproach) (h : genNext fs l = some (a, rest)) :
    genToList fs l = a :: genToList fs rest := by
  induction l with
  | nil => simp [genNext] at h
  | cons b l2 ih =>
    by_cases hp : passesAll fs b
    · simp only [genNext, if_pos hp, Option.some.injEq, Prod.mk.injEq] at h
      obtain ⟨rfl, rfl⟩ := h
      simp [genToList, hp]
    · simp only [genNext, if_neg hp] at h
      simp [genToList, hp, ih h]

theorem consume_of_next_none (n : Nat) (g : QueryGen) (h : g.next = none) :
    consume n g = [] := by
  cases n with
  | zero => rfl
  | succ n => simp [consume, h]

theorem consume_eq_take (n : Nat) (g : QueryGen) : consume n g = g.toList.take n := by
  induction n generalizing g with
  | zero => rfl
  | succ n ih =>
    match h : genNext g.filters g.remaining with
    | none =>
      have ht : g.toList = [] := genNext_none_toList _ _ h
      simp [consume, QueryGen.next, h, ht]
    | some (a, rest) =>
      have ht : g.toList = a :: genToList g.filters rest := genNext_some_toList _ _ _ _ h
      have hc : consume (n + 1) g = a :: consume n ⟨rest, g.filters⟩ := by
        simp [consume, QueryGen.next, h]
      rw [hc, ht, List.take_succ_cons, ih]
      rfl

theorem interleave_eq (sched : List Bool) (g1 g2 : QueryGen) :
    interleave sched g1 g2
      = (consume (sched.count true) g1, consume (sched.count false) g2) := by
  induction sched generalizing g1 g2 with
  | nil => simp [interleave, consume]
  | cons b sched ih =>
    cases b with
    | true =>
      have hcf : (true :: sched).count false = sched.count false := by simp
      have hct : (true :: sched).count true = sched.count true + 1 := by simp
      match h : g1.next with
      | none =>
        have h1 : interleave (true :: sched) g1 g2 = interleave sched g1 g2 := by
          simp [interleave, h]
        rw [h1, ih, hcf, hct, consume_of_next_none _ _ h,
          consume_of_next_none _ _ h]
      | some (a, g1x) =>
        have h1 : interleave (true :: sched) g1 g2
            = ((a :: (interleave sched g1x g2).1), (interleave sched g1x g2).2) := by
          simp [interleave, h]
        have h2 : consume (sched.count true + 1) g1 = a :: consume (sched.count true) g1x := by
          simp [consume, h]
        rw [h1, ih, hcf, hct, h2]
    | false =>
      have hcf : (false :: sched).count false = sched.count false + 1 := by simp
      have hct : (false :: sched).count true = sched.count true := by simp
      match h : g2.next with
      | none =>
        have h1 : interleave (false :: sched) g1 g2 = interleave sched g1 g2 := by
          simp [interleave, h]
        rw [h1, ih, hcf, hct, consume_of_next_none _ _ h,
          consume_of_next_none _ _ h]
      | some (a, g2x) =>
        have h1 : interleave (false :: sched) g1 g2
            = ((interleave sched g1 g2x).1, a :: (interleave sched g1 g2x).2) := by
          simp [interleave, h]
        have h2 : consume (sched.count false + 1) g2 = a :: consume (sched.count false) g2x := by
          simp [consume, h]
        rw [h1, ih, hcf, hct, h2]

theorem getD_set_self (l : List (List Nat)) (i : Nat) (v : List Nat) (h : i < l.length) :
    (l.set i v).getD i [] = v := by
  simp [List.getD_eq_getElem?_getD, List.getElem?_set, h]

theorem getD_set_ne (l : List (List Nat)) (i b : Nat) (v : List Nat) (h : i ≠ b) :
    (l.set i v).getD b [] = l.getD b [] := by
  simp [List.getD_eq_getElem?_getD, List.getElem?_set, h]

theorem appendAt_length (na : List (List Nat)) (i j : Nat) :
    (appendAt na i j).length = na.length := List.length_set na i _

theorem appendAt_getD_self (na : List (List Nat)) (i j : Nat) (h : i < na.length) :
    (appendAt na i j).getD i [] = na.getD i [] ++ [j] := getD_set_self na i _ h

theorem appendAt_getD_ne (na : List (List Nat)) (i b j : Nat) (h : i ≠ b) :
    (appendAt na i j).getD b [] = na.getD b [] := getD_set_ne na i b _ h

theorem replicate_nil_getD (n b : Nat) :
    (List.replicate n ([] : List Nat)).getD b [] = [] := by
  induction n generalizing b with
  | zero => cases b <;> rfl
  | succ n ih =>
    cases b with
    | zero => rfl
    | succ b => simp [List.replicate_succ, ih b]

theorem initLoop_raised_iff (neos : List NearEarthObject) (rest : List CloseApproach)
    (j : Nat) (na : List (List Nat)) (di : List (Int × List Nat)) :
    (initLoop neos rest j na di).raised = true ↔
      ∃ a ∈ rest, get_neo_by_designation_idx neos a.designation = none := by
  induction rest generalizing j na di with
  | nil => simp [initLoop]
  | cons a rest ih =>
    match hidx : get_neo_by_designation_idx neos a.designation with
    | none =>
      simp only [initLoop, hidx]
      exact ⟨fun _ => ⟨a, List.mem_cons_self a rest, hidx⟩, fun _ => trivial⟩
    | some i =>
      simp only [initLoop, hidx]
      rw [ih]
      constructor
      · rintro ⟨x, hx, hxn⟩
        exact ⟨x, List.mem_cons_of_mem a hx, hxn⟩
      · rintro ⟨x, hx, hxn⟩
        rcases List.mem_cons.mp hx with rfl | hx
        · rw [hidx] at hxn
          cases hxn
        · exact ⟨x, hx, hxn⟩

theorem initLoop_aps_success (neos : List NearEarthObject) (rest : List CloseApproach)
    (j : Nat) (na : List (List Nat)) (di : List (Int × List Nat))
    (h : (initLoop neos rest j na di).raised = false) :
    (initLoop neos rest j na di).aps
      = rest.map fun a => (a, get_neo_by_designation_idx neos a.designation) := by
  induction rest generalizing j na di with
  | nil => simp [initLoop]
  | cons a rest ih =>
    match hidx : get_neo_by_designation_idx neos a.designation with
    | none =>
      simp [initLoop, hidx] at h
    | some i =>
      simp only [initLoop, hidx] at h ⊢
      simp only [List.map_cons, List.cons.injEq]
      exact ⟨by rw [hidx], ih _ _ _ h⟩

theorem initLoop_na_counts (neos : List NearEarthObject) (rest : List CloseApproach)
    (j : Nat) (na : List (List Nat)) (di : List (Int × List Nat))
    (hlen : na.length = neos.length)
    (hbound : ∀ b x, x ∈ na.getD b [] → x < j)
    (hok : (initLoop neos rest j na di).raised = false) :
    (∀ b x, x < j →
      ((initLoop neos rest j na di).na.getD b []).count x = (na.getD b []).count x)
    ∧ (∀ k a, rest.get? k = some a → ∃ i,
        get_neo_by_designation_idx neos a.designation = some i ∧
        ((initLoop neos rest j na di).na.getD i []).count (j + k) = 1 ∧
        ∀ b, b ≠ i → ((initLoop neos rest j na di).na.getD b []).count (j + k) = 0) := by
  induction rest generalizing j na di with
  | nil =>
    refine ⟨fun b x _ => by simp [initLoop], fun k a hk => by simp at hk⟩
  | cons a rest ih =>
    match hidx : get_neo_by_designation_idx neos a.designation with
    | none =>
      simp [initLoop, hidx] at hok
    | some i =>
      have hilt : i < na.length := by
        rw [hlen]
        exact findFirstIdx_lt_length _ _ _ hidx
      simp only [initLoop, hidx] at hok ⊢
      have hlen2 : (appendAt na i j).length = neos.length := by
        rw [appendAt_length, hlen]
      have hbound2 : ∀ b x, x ∈ (appendAt na i j).getD b [] → x < j + 1 := by
        intro b x hx
        by_cases hbi : i = b
        · subst hbi
          rw [appendAt_getD_self na i j hilt] at hx
          rcases List.mem_append.mp hx with hx | hx
          · exact Nat.lt_succ_of_lt (hbound i x hx)
          · simp at hx
            omega
        · rw [appendAt_getD_ne na i b j hbi] at hx
          exact Nat.lt_succ_of_lt (hbound b x hx)
      obtain ⟨ih1, ih2⟩ :=
        ih (j + 1) (appendAt na i j) (bucketAdd di a.time.date j) hlen2 hbound2 hok
      have hjcount : ∀ b, ((initLoop neos rest (j + 1) (appendAt na i j)
          (bucketAdd di a.time.date j)).na.getD b []).count j
            = ((appendAt na i j).getD b []).count j :=
        fun b => ih1 b j (Nat.lt_succ_self j)
      have hnotmem : ∀ b, j ∉ na.getD b [] := by
        intro b hmem
        exact absurd (hbound b j hmem) (Nat.lt_irrefl j)
      constructor
      · intro b x hx
        rw [ih1 b x (Nat.lt_succ_of_lt hx)]
        by_cases hbi : i = b
        · subst hbi
          rw [appendAt_getD_self na i j hilt, List.count_append]
          have hxj : x ≠ j := by omega
          have : ([j].count x) = 0 := List.count_eq_zero.mpr (by simpa using hxj)
          omega
        · rw [appendAt_getD_ne na i b j hbi]
      · intro k x hk
        cases k with
        | zero =>
          simp only [List.get?_cons_zero, Option.some.injEq] at hk
          subst hk
          refine ⟨i, hidx, ?_, ?_⟩
          · rw [Nat.add_zero, hjcount i, appendAt_getD_self na i j hilt,
              List.count_append]
            rw [List.count_eq_zero.mpr (hnotmem i)]
            simp
          · intro b hbi
            rw [Nat.add_zero, hjcount b, appendAt_getD_ne na i b j (fun h => hbi h.symm),
              List.count_eq_zero.mpr (hnotmem b)]
        | succ k2 =>
          have hk2 : rest.get? k2 = some x := by simpa using hk
          obtain ⟨i2, hi2, hc1, hc0⟩ := ih2 k2 x hk2
          have harith : j + 1 + k2 = j + (k2 + 1) := by omega
          rw [harith] at hc1 hc0
          exact ⟨i2, hi2, hc1, hc0⟩

theorem construct_ok_inv (neos : List NearEarthObject) (aps : List CloseApproach)
    (db : NEODatabase) (h : NEODatabase.construct neos aps = Except.ok db) :
    (initRun neos aps).raised = false ∧ db._neos = neos ∧ db._approaches = aps ∧
    db.approachNeo = (initRun neos aps).aps.map Prod.snd ∧
    db.neoApproaches = (initRun neos aps).na ∧
    db._date_to_approaches = (initRun neos aps).di ∧
    db.approaches_distance_sorted = none ∧
    db.approaches_velocity_sorted = none ∧
    db.neos_diameter_sorted = none := by
  unfold NEODatabase.construct at h
  by_cases hb : (initRun neos aps).raised = true
  · rw [if_pos hb] at h
    cases h
  · rw [if_neg hb] at h
    simp only [Except.ok.injEq] at h
    subst h
    exact ⟨by simpa using hb, rfl, rfl, rfl, rfl, rfl, rfl, rfl, rfl⟩

theorem construct_error_iff (neos : List NearEarthObject) (aps : List CloseApproach) :
    (∃ e, NEODatabase.construct neos aps = Except.error e)
      ↔ (initRun neos aps).raised = true := by
  unfold NEODatabase.construct
  by_cases hb : (initRun neos aps).raised = true
  · rw [if_pos hb]
    exact ⟨fun _ => hb, fun _ => ⟨_, rfl⟩⟩
  · rw [if_neg hb]
    constructor
    · rintro ⟨e, he⟩
      cases he
    · intro h
      exact absurd h hb

theorem construct_ok_exists_iff (neos : List NearEarthObject) (aps : List CloseApproach) :
    (∃ db, NEODatabase.construct neos aps = Except.ok db)
      ↔ (initRun neos aps).raised = false := by
  unfold NEODatabase.construct
  by_cases hb : (initRun neos aps).raised = true
  · rw [if_pos hb]
    constructor
    · rintro ⟨db, hdb⟩
      cases hdb
    · intro h
      rw [h] at hb
      cases hb
  · rw [if_neg hb]
    exact ⟨fun _ => by simpa using hb, fun _ => ⟨_, rfl⟩⟩

theorem initLoop_failure_split (neos : List NearEarthObject) (rest : List CloseApproach)
    (k j : Nat) (na : List (List Nat)) (di : List (Int × List Nat))
    (hk : findFirstIdx
        (fun a => (get_neo_by_designation_idx neos a.designation).isNone) rest = some k) :
    (initLoop neos rest j na di).raised = true ∧
    (initLoop neos rest j na di).aps
      = (initLoop neos (rest.take k) j na di).aps
          ++ (rest.drop k).map (fun x => (x, none)) ∧
    (initLoop neos rest j na di).na = (initLoop neos (rest.take k) j na di).na ∧
    (initLoop neos (rest.take k) j na di).raised = false := by
  induction rest generalizing k j na di with
  | nil => simp [findFirstIdx] at hk
  | cons a rest ih =>
    by_cases hp : (get_neo_by_designation_idx neos a.designation).isNone
    · have hk0 : k = 0 := by
        simp only [findFirstIdx, if_pos hp, Option.some.injEq] at hk
        omega
      subst hk0
      have hidx : get_neo_by_designation_idx neos a.designation = none :=
        Option.isNone_iff_eq_none.mp hp
      simp [initLoop, hidx]
    · have hidx : ∃ i, get_neo_by_designation_idx neos a.designation = some i := by
        cases hopt : get_neo_by_designation_idx neos a.designation with
        | none => rw [hopt] at hp; simp at hp
        | some i => exact ⟨i, rfl⟩
      obtain ⟨i, hidx⟩ := hidx
      simp only [findFirstIdx, if_neg hp, Option.map_eq_some'] at hk
      obtain ⟨k2, hk2, rfl⟩ := hk
      obtain ⟨h1, h2, h3, h4⟩ := ih k2 (j + 1) (appendAt na i j) (bucketAdd di a.time.date j) hk2
      refine ⟨?_, ?_, ?_, ?_⟩
      · simp only [initLoop, hidx]
        exact h1
      · simp only [List.take_succ_cons, List.drop_succ_cons, initLoop, hidx]
        simp only [List.cons_append, List.cons.injEq]
        exact ⟨by trivial, h2⟩
      · simp only [List.take_succ_cons, initLoop, hidx]
        exact h3
      · simp only [List.take_succ_cons, initLoop, hidx]
        exact h4

theorem sampleDb_eq :
    NEODatabase.construct [erosNeo, xyNeo] [approach433, approachXY]
      = Except.ok sampleDb := by
  rfl

theorem initRun_raised_iff (neos : List NearEarthObject) (aps : List CloseApproach) :
    (initRun neos aps).raised = true
      ↔ ∃ a ∈ aps, get_neo_by_designation_idx neos a.designation = none :=
  initLoop_raised_iff neos aps 0 (List.replicate neos.length []) []

theorem initRun_aps_success (neos : List NearEarthObject) (aps : List CloseApproach)
    (h : (initRun neos aps).raised = false) :
    (initRun neos aps).aps
      = aps.map fun a => (a, get_neo_by_designation_idx neos a.designation) :=
  initLoop_aps_success neos aps 0 (List.replicate neos.length []) [] h

theorem get_neo_by_name_idx_some (neos : List NearEarthObject) (s : String) :
    get_neo_by_name_idx neos (some s)
      = if s = "" then none
        else
          findFirstIdx
            (fun x =>
              match x.name with
              | none => false
              | some nm => strLower nm == strLower s)
            neos := rfl

/-! ### Claim theorems -/

/-- C1: construction fails (the `ValueError` the spec calls `LinkageError`
propagates, modelled as `Except.error`) exactly when some approach has a
designation key matching no NEO case-insensitively; conversely, when every
approach designation matches some NEO, construction succeeds and returns a
database, raising nothing. -/
theorem c1_linkage_error (neos : List NearEarthObject) (aps : List CloseApproach) :
    ((∃ e, NEODatabase.construct neos aps = Except.error e)
      ↔ ∃ a ∈ aps, get_neo_by_designation_idx neos a.designation = none)
    ∧ ((∃ db, NEODatabase.construct neos aps = Except.ok db)
      ↔ ∀ a ∈ aps, (get_neo_by_designation_idx neos a.designation).isSome = true) := by
  constructor
  · rw [construct_error_iff]
    exact initRun_raised_iff neos aps
  · rw [construct_ok_exists_iff]
    constructor
    · intro h a ha
      cases hopt : get_neo_by_designation_idx neos a.designation with
      | none =>
        have hb : (initRun neos aps).raised = true :=
          (initRun_raised_iff neos aps).mpr ⟨a, ha, hopt⟩
        rw [h] at hb
        cases hb
      | some i => rfl
    · intro h
      by_cases hb : (initRun neos aps).raised = true
      · obtain ⟨a, ha, hnone⟩ := (initRun_raised_iff neos aps).mp hb
        have hs := h a ha
        rw [hnone] at hs
        simp at hs
      · simpa using hb

theorem c1_linkage_error_witness :
    (∃ e, NEODatabase.construct [erosNeo, xyNeo] [approach433, approachNope]
        = Except.error e)
    ∧ (∃ db, NEODatabase.construct [erosNeo, xyNeo] [approach433, approachXY]
        = Except.ok db) :=
  ⟨(c1_linkage_error [erosNeo, xyNeo] [approach433, approachNope]).1.mpr
      ⟨approachNope, by decide, by decide⟩,
   (c1_linkage_error [erosNeo, xyNeo] [approach433, approachXY]).2.mpr (by decide)⟩

/-- C2 (the divergence, proved about the code): after every successful
construction the three sorted attributes are absent — `__init__` never sets
them and nothing in the repository invokes `__post__init__`, so no
precomputed orderings exist on the database. -/
theorem c2_sorted_orderings_absent (neos : List NearEarthObject)
    (aps : List CloseApproach) (db : NEODatabase)
    (h : NEODatabase.construct neos aps = Except.ok db) :
    db.approaches_distance_sorted = none
    ∧ db.approaches_velocity_sorted = none
    ∧ db.neos_diameter_sorted = none := by
  obtain ⟨-, -, -, -, -, -, h7, h8, h9⟩ := construct_ok_inv neos aps db h
  exact ⟨h7, h8, h9⟩

theorem c2_sorted_orderings_absent_witness :
    NEODatabase.construct [erosNeo, xyNeo] [approach433, approachXY] = Except.ok sampleDb
    ∧ (sampleDb.approaches_distance_sorted = none
      ∧ sampleDb.approaches_velocity_sorted = none
      ∧ sampleDb.neos_diameter_sorted = none) :=
  ⟨by rfl,
   c2_sorted_orderings_absent [erosNeo, xyNeo] [approach433, approachXY] sampleDb (by rfl)⟩

/-- C3 is false at this concrete input: construction fails (the error is
returned, no database comes back), yet the approaches collection of the
first NEO has been extended with approach 0, and approaches 0 and 1 have
their neo references set — partial state is observable on the input
objects. -/
theorem c3_atomicity_counterexample :
    (∃ e, NEODatabase.construct [erosNeo, xyNeo] [approach433, approachXY, approachNope]
        = Except.error e)
    ∧ (initRun [erosNeo, xyNeo] [approach433, approachXY, approachNope]).na = [[0], [1]]
    ∧ (initRun [erosNeo, xyNeo] [approach433, approachXY, approachNope]).aps.map Prod.snd
        = [some 0, some 1, none] :=
  ⟨⟨LinkageError.valueError "No NEO found for this approach.", by rfl⟩, by decide, by decide⟩

/-- C3 corrected: construction is not atomic.  Whenever the input has an
unmatched approach (the first one at position k), the constructor raises
and no database is returned, but the input objects are left partially
linked: the final states of the approach objects and of the NEO approaches
collections are exactly those a successful construction on the first k
approaches produces, with every approach from position k on keeping a null
neo reference, and the approach at position k matching no NEO. -/
theorem c3_failure_observable_state (neos : List NearEarthObject) (aps : List CloseApproach)
    (k : Nat) (hk : firstUnmatched neos aps = some k) :
    (∃ e, NEODatabase.construct neos aps = Except.error e)
    ∧ (initRun neos aps).aps
        = (initRun neos (aps.take k)).aps ++ (aps.drop k).map (fun x => (x, none))
    ∧ (initRun neos aps).na = (initRun neos (aps.take k)).na
    ∧ (initRun neos (aps.take k)).raised = false
    ∧ (∃ a, aps.get? k = some a ∧ get_neo_by_designation_idx neos a.designation = none) := by
  obtain ⟨h1, h2, h3, h4⟩ :=
    initLoop_failure_split neos aps k 0 (List.replicate neos.length []) [] hk
  refine ⟨(construct_error_iff neos aps).mpr h1, h2, h3, h4, ?_⟩
  obtain ⟨a, ha, hpa, -⟩ := findFirstIdx_eq_some _ _ _ hk
  exact ⟨a, ha, Option.isNone_iff_eq_none.mp hpa⟩

theorem c3_failure_observable_state_witness :
    firstUnmatched [erosNeo, xyNeo] [approach433, approachXY, approachNope] = some 2
    ∧ ((∃ e, NEODatabase.construct [erosNeo, xyNeo]
          [approach433, approachXY, approachNope] = Except.error e)
      ∧ (initRun [erosNeo, xyNeo] [approach433, approachXY, approachNope]).aps
          = (initRun [erosNeo, xyNeo]
              ([approach433, approachXY, approachNope].take 2)).aps
            ++ ([approach433, approachXY, approachNope].drop 2).map (fun x => (x, none))
      ∧ (initRun [erosNeo, xyNeo] [approach433, approachXY, approachNope]).na
          = (initRun [erosNeo, xyNeo]
              ([approach433, approachXY, approachNope].take 2)).na
      ∧ (initRun [erosNeo, xyNeo]
          ([approach433, approachXY, approachNope].take 2)).raised = false
      ∧ (∃ a, [approach433, approachXY, approachNope].get? 2 = some a
          ∧ get_neo_by_designation_idx [erosNeo, xyNeo] a.designation = none)) :=
  ⟨by decide,
   c3_failure_observable_state [erosNeo, xyNeo] [approach433, approachXY, approachNope] 2
     (by decide)⟩

/-- C7: for every database returned by construction, `query` with an empty
filter collection yields (on exhausting the generator) every approach in
the dataset exactly once, in internal storage order, and the storage order
is exactly the approach collection supplied at construction. -/
theorem c7_query_empty_filters (db : NEODatabase) (neos : List NearEarthObject)
    (aps : List CloseApproach) (h : NEODatabase.construct neos aps = Except.ok db) :
    (db.query []).toList = db._approaches ∧ db._approaches = aps := by
  obtain ⟨-, -, h2, -, -, -, -, -, -⟩ := construct_ok_inv neos aps db h
  refine ⟨?_, h2⟩
  show genToList [] db._approaches = db._approaches
  rw [genToList_eq_filter]
  calc db._approaches.filter (passesAll [])
      = db._approaches.filter (fun _ => true) := List.filter_congr (fun x _ => rfl)
    _ = db._approaches := List.filter_true _

theorem c7_query_empty_filters_witness :
    (sampleDb.query []).toList = sampleDb._approaches
    ∧ sampleDb._approaches = [approach433, approachXY] :=
  c7_query_empty_filters sampleDb [erosNeo, xyNeo] [approach433, approachXY] sampleDb_eq

/-- C8: the sequence yielded by `query` under two predicates is exactly the
storage-order filtering by their conjunction, equal to filtering the result
of the one-predicate query by the other predicate (the intersection of the
two one-predicate sequences as subsequences of the storage order); and in
general an approach is yielded by `query filters` exactly when it is stored
and every supplied predicate returns true on it. -/
theorem c8_query_conjunction (db : NEODatabase) (p1 p2 : CloseApproach → Bool)
    (fs : List (CloseApproach → Bool)) :
    (db.query [p1, p2]).toList = ((db.query [p1]).toList).filter p2
    ∧ (db.query [p1, p2]).toList = db._approaches.filter (fun a => p1 a && p2 a)
    ∧ (∀ a, a ∈ (db.query fs).toList ↔ a ∈ db._approaches ∧ ∀ f ∈ fs, f a = true) := by
  have hpair : ∀ a : CloseApproach, passesAll [p1, p2] a = (p1 a && p2 a) := by
    intro a
    simp [passesAll, List.all_cons, List.all_nil, Bool.and_true]
  have h2 : (db.query [p1, p2]).toList = db._approaches.filter (fun a => p1 a && p2 a) := by
    show genToList [p1, p2] db._approaches = _
    rw [genToList_eq_filter]
    exact List.filter_congr (fun x _ => hpair x)
  refine ⟨?_, h2, ?_⟩
  · show genToList [p1, p2] db._approaches
      = (genToList [p1] db._approaches).filter p2
    rw [genToList_eq_filter, genToList_eq_filter, List.filter_filter]
    apply List.filter_congr
    intro x _
    simp [passesAll, List.all_cons, List.all_nil, Bool.and_comm]
  · intro a
    show a ∈ genToList fs db._approaches ↔ _
    rw [genToList_eq_filter, List.mem_filter]
    simp [passesAll, List.all_eq_true]

/-- C9: two generators obtained from separate `query` calls with the same
filters, consumed interleaved under an arbitrary schedule, are independent:
each side receives exactly the prefix of the full query sequence whose
length is the number of steps scheduled on that side, irrespective of how
the steps of the two sides are interleaved — so each call yields the same
sequence and consuming one stream does not change the remaining results of
the other. -/
theorem c9_stream_independence (db : NEODatabase)
    (fs : List (CloseApproach → Bool)) (sched : List Bool) :
    interleave sched (db.query fs) (db.query fs)
      = ((db.query fs).toList.take (sched.count true),
         (db.query fs).toList.take (sched.count false)) := by
  rw [interleave_eq, consume_eq_take, consume_eq_take]

/-- C4: linkage totality — on every input on which construction succeeds,
every approach (at position j) is linked to some NEO index i inside the
input NEO collection, the approaches collection of that NEO contains j
exactly once, and the approaches collection of every other NEO does not
contain j. -/
theorem c4_linkage_totality (neos : List NearEarthObject) (aps : List CloseApproach)
    (db : NEODatabase) (h : NEODatabase.construct neos aps = Except.ok db) :
    ∀ j a, aps.get? j = some a → ∃ i,
      db.approachNeo.get? j = some (some i) ∧ i < neos.length
      ∧ (db.neoApproaches.getD i []).count j = 1
      ∧ ∀ b, b ≠ i → (db.neoApproaches.getD b []).count j = 0 := by
  obtain ⟨hr, -, -, haps, hna, -, -, -, -⟩ := construct_ok_inv neos aps db h
  have hbase : ∀ b x, x ∈ (List.replicate neos.length ([] : List Nat)).getD b [] → x < 0 := by
    intro b x hx
    rw [replicate_nil_getD] at hx
    cases hx
  obtain ⟨-, h2⟩ := initLoop_na_counts neos aps 0 (List.replicate neos.length []) []
    (by simp) hbase hr
  intro j a hj
  obtain ⟨i, hidx, hc1, hc0⟩ := h2 j a hj
  refine ⟨i, ?_, findFirstIdx_lt_length _ _ _ hidx, ?_, ?_⟩
  · rw [haps, initRun_aps_success neos aps hr, List.map_map, List.get?_map, hj]
    simp [hidx, Function.comp]
  · rw [hna]
    simpa using hc1
  · intro b hb
    rw [hna]
    simpa using hc0 b hb

theorem c4_linkage_totality_witness :
    ∃ i, sampleDb.approachNeo.get? 0 = some (some i) ∧ i < [erosNeo, xyNeo].length
      ∧ (sampleDb.neoApproaches.getD i []).count 0 = 1
      ∧ ∀ b, b ≠ i → (sampleDb.neoApproaches.getD b []).count 0 = 0 :=
  c4_linkage_totality [erosNeo, xyNeo] [approach433, approachXY] sampleDb (by rfl)
    0 approach433 (by rfl)

theorem lookup_first_of_unique (neos : List NearEarthObject) :
    neos.Pairwise (fun a b => strLower a.designation ≠ strLower b.designation) →
    ∀ i N, neos.get? i = some N → ∀ s, strLower s = strLower N.designation →
    get_neo_by_designation_idx neos s = some i := by
  induction neos with
  | nil =>
    intro _ i N hN
    simp at hN
  | cons a rest ih =>
    intro huniq i N hN s hs
    rcases List.pairwise_cons.mp huniq with ⟨hhead, htail⟩
    cases i with
    | zero =>
      simp only [List.get?_cons_zero, Option.some.injEq] at hN
      subst hN
      unfold get_neo_by_designation_idx findFirstIdx
      rw [if_pos (by rw [beq_iff_eq]; exact hs.symm)]
    | succ i2 =>
      have hN2 : rest.get? i2 = some N := by simpa using hN
      have hmem : N ∈ rest := List.get?_mem hN2
      have hne : strLower a.designation ≠ strLower s := by
        intro hcontra
        exact hhead N hmem (by rw [hcontra, hs])
      unfold get_neo_by_designation_idx findFirstIdx
      rw [if_neg (by simp only [beq_iff_eq]; exact hne)]
      have hrest := ih htail i2 N hN2 s hs
      unfold get_neo_by_designation_idx at hrest
      rw [hrest]
      rfl

/-- C5: for every database whose NEO designations are pairwise distinct
after case-folding, lookup by designation returns exactly the NEO whose
designation equals the query up to case (identified by its index), and
returns the explicit not-found value `None` for every query matching no
designation, without raising. -/
theorem c5_designation_lookup (db : NEODatabase)
    (huniq : db._neos.Pairwise fun a b => strLower a.designation ≠ strLower b.designation) :
    (∀ i N, db._neos.get? i = some N → ∀ s, strLower s = strLower N.designation →
      get_neo_by_designation_idx db._neos s = some i
      ∧ db.get_neo_by_designation s = some N)
    ∧ (∀ s, (∀ N ∈ db._neos, strLower s ≠ strLower N.designation) →
      db.get_neo_by_designation s = none) := by
  constructor
  · intro i N hN s hs
    have hidx := lookup_first_of_unique db._neos huniq i N hN s hs
    refine ⟨hidx, ?_⟩
    show (get_neo_by_designation_idx db._neos s).bind (fun i => db._neos.get? i) = some N
    rw [hidx]
    exact hN
  · intro s hne
    have hnone : get_neo_by_designation_idx db._neos s = none := by
      unfold get_neo_by_designation_idx
      rw [findFirstIdx_eq_none_iff]
      intro x hx
      simp only [beq_eq_false_iff_ne]
      exact fun hcontra => hne x hx hcontra.symm
    show (get_neo_by_designation_idx db._neos s).bind (fun i => db._neos.get? i) = none
    rw [hnone]
    rfl

theorem c5_designation_lookup_witness :
    ([erosNeo, xyNeo].Pairwise fun a b => strLower a.designation ≠ strLower b.designation)
    ∧ (get_neo_by_designation_idx sampleDb._neos "433" = some 0
      ∧ sampleDb.get_neo_by_designation "433" = some erosNeo)
    ∧ sampleDb.get_neo_by_designation "does-not-exist" = none := by
  have h := c5_designation_lookup sampleDb (by decide)
  exact ⟨by decide, h.1 0 erosNeo (by rfl) "433" (by rfl), h.2 "does-not-exist" (by decide)⟩

/-- C6: name lookup returns not-found on the `None` query and on the empty
string, even when some NEO has an absent name; whenever it returns an NEO,
that NEO has a non-absent name equal to the query up to case and is the
first-inserted NEO among those sharing that name; and for every NEO with a
non-absent (and, per the data model, non-empty) name, querying that name up
to case does find an NEO. -/
theorem c6_name_lookup (db : NEODatabase) :
    db.get_neo_by_name none = none
    ∧ db.get_neo_by_name (some "") = none
    ∧ (∀ s i, get_neo_by_name_idx db._neos (some s) = some i →
        ∃ N nm, db._neos.get? i = some N ∧ N.name = some nm
          ∧ strLower nm = strLower s
          ∧ db.get_neo_by_name (some s) = some N
          ∧ ∀ k N2 nm2, k < i → db._neos.get? k = some N2 → N2.name = some nm2 →
              strLower nm2 ≠ strLower s)
    ∧ (∀ i N nm s, db._neos.get? i = some N → N.name = some nm → nm ≠ "" →
        strLower s = strLower nm →
        ∃ j, get_neo_by_name_idx db._neos (some s) = some j) := by
  refine ⟨rfl, ?_, ?_, ?_⟩
  · show (get_neo_by_name_idx db._neos (some "")).bind (fun i => db._neos.get? i) = none
    unfold get_neo_by_name_idx
    simp
  · intro s i hi
    by_cases hse : s = ""
    · subst hse
      rw [get_neo_by_name_idx_some] at hi
      simp at hi
    · rw [get_neo_by_name_idx_some, if_neg hse] at hi
      obtain ⟨N, hN, hpN, hmin⟩ := findFirstIdx_eq_some _ _ _ hi
      cases hnm : N.name with
      | none =>
        rw [hnm] at hpN
        simp at hpN
      | some nm =>
        rw [hnm] at hpN
        have heq : strLower nm = strLower s := by simpa using hpN
        refine ⟨N, nm, hN, hnm, heq, ?_, ?_⟩
        · show (get_neo_by_name_idx db._neos (some s)).bind (fun i => db._neos.get? i)
            = some N
          rw [get_neo_by_name_idx_some, if_neg hse, hi]
          exact hN
        · intro k N2 nm2 hk hN2 hnm2 hcontra
          have hfalse := hmin k N2 hk hN2
          rw [hnm2] at hfalse
          simp only [beq_eq_false_iff_ne] at hfalse
          exact hfalse hcontra
  · intro i N nm s hN hnm hnme hs
    have hsne : s ≠ "" := by
      intro hcontra
      subst hcontra
      have hempty : strLower nm = "" := hs.symm
      exact hnme ((strLower_eq_empty_iff nm).mp hempty)
    have hmem : N ∈ db._neos := List.get?_mem hN
    have hpN : (match N.name with
        | none => false
        | some nm2 => strLower nm2 == strLower s) = true := by
      rw [hnm]
      show (strLower nm == strLower s) = true
      rw [beq_iff_eq]
      exact hs.symm
    obtain ⟨j, hj⟩ := findFirstIdx_isSome_of_mem
      (fun x =>
        match x.name with
        | none => false
        | some nm2 => strLower nm2 == strLower s)
      db._neos N hmem hpN
    refine ⟨j, ?_⟩
    rw [get_neo_by_name_idx_some, if_neg hsne]
    exact hj

theorem c6_name_lookup_witness :
    (get_neo_by_name_idx sampleDb._neos (some "EROS") = some 0)
    ∧ (∃ N nm, sampleDb._neos.get? 0 = some N ∧ N.name = some nm
        ∧ strLower nm = strLower "EROS"
        ∧ sampleDb.get_neo_by_name (some "EROS") = some N
        ∧ ∀ k N2 nm2, k < 0 → sampleDb._neos.get? k = some N2 → N2.name = some nm2 →
            strLower nm2 ≠ strLower "EROS")
    ∧ (∃ j, get_neo_by_name_idx sampleDb._neos (some "eros") = some j) :=
  ⟨by decide,
   (c6_name_lookup sampleDb).2.2.1 "EROS" 0 (by decide),
   (c6_name_lookup sampleDb).2.2.2 0 erosNeo "Eros" "eros" (by rfl) (by rfl) (by decide)
     (by decide)⟩

/-- C10: when designations collide after case-folding, the lookup returns
the NEO earliest in the input collection — the returned index carries a
matching designation and every strictly earlier index does not match — and
during a successful construction every approach is linked to exactly the
index the lookup returns for its designation (so an approach with a
duplicated designation is linked to that same earliest NEO). -/
theorem c10_first_inserted_wins (neos : List NearEarthObject) (s : String) (i : Nat)
    (h : get_neo_by_designation_idx neos s = some i) :
    (∃ N, neos.get? i = some N ∧ strLower N.designation = strLower s
      ∧ ∀ db : NEODatabase, db._neos = neos → db.get_neo_by_designation s = some N)
    ∧ (∀ k N2, k < i → neos.get? k = some N2 → strLower N2.designation ≠ strLower s)
    ∧ (∀ aps db j a, NEODatabase.construct neos aps = Except.ok db →
        aps.get? j = some a →
        db.approachNeo.get? j = some (get_neo_by_designation_idx neos a.designation)) := by
  obtain ⟨N, hN, hpN, hmin⟩ := findFirstIdx_eq_some _ _ _ h
  refine ⟨⟨N, hN, by simpa using hpN, ?_⟩, ?_, ?_⟩
  · intro db hdb
    show (get_neo_by_designation_idx db._neos s).bind (fun i => db._neos.get? i) = some N
    rw [hdb, h]
    exact hN
  · intro k N2 hk hN2 hcontra
    have hfalse := hmin k N2 hk hN2
    simp only [beq_eq_false_iff_ne] at hfalse
    exact hfalse hcontra
  · intro aps db j a hok hj
    obtain ⟨hr, -, -, haps, -, -, -, -, -⟩ := construct_ok_inv neos aps db hok
    rw [haps, initRun_aps_success neos aps hr, List.map_map, List.get?_map, hj]
    rfl

theorem c10_first_inserted_wins_witness :
    (get_neo_by_designation_idx [abcNeo, abcNeo2] "AbC" = some 0)
    ∧ ((∃ N, ([abcNeo, abcNeo2] : List NearEarthObject).get? 0 = some N
        ∧ strLower N.designation = strLower "AbC"
        ∧ ∀ db : NEODatabase, db._neos = [abcNeo, abcNeo2] →
            db.get_neo_by_designation "AbC" = some N)
      ∧ (∀ k N2, k < 0 → ([abcNeo, abcNeo2] : List NearEarthObject).get? k = some N2 →
          strLower N2.designation ≠ strLower "AbC")
      ∧ (∀ aps db j a, NEODatabase.construct [abcNeo, abcNeo2] aps = Except.ok db →
          aps.get? j = some a →
          db.approachNeo.get? j
            = some (get_neo_by_designation_idx [abcNeo, abcNeo2] a.designation))) :=
  ⟨by decide, c10_first_inserted_wins [abcNeo, abcNeo2] "AbC" 0 (by decide)⟩

end NeoDb
